import Mathlib

/-!
Verification of the parser-combinator engine.

The repository has two variants of the same engine:
* `src/parser_fun.rs` — parsers are plain functions
  `Fn(&'a str) -> ParseResult<'a, Output>` with
  `type ParseResult<'a, Output> = Result<(&'a str, Output), &'a str>`;
* `src/parser_struct.rs` — parsers are structs implementing a
  `ParserStruct<Output>` trait whose `parse` takes and returns owned `String`s.

Embedding choices:
* Rust `&str` / `String` values become `List Char` (Rust `char` and Lean
  `Char` are both Unicode scalar values).  Ownership and borrowing are
  erased; both variants' values become the same type, and their behavioral
  agreement is proved extensionally.
* Byte-indexed operations (`str::len`, `str::get(0..n)`, `&s[n..]`) are
  modelled on the UTF-8 encoding: `charUtf8Len`/`utf8Len` give byte lengths,
  `splitAtBytes s n` models the checked lookup `s.get(0..n)` (it returns
  `none` exactly when `n` overruns the string or falls strictly inside a
  multi-byte code point, the cases where Rust's `get` returns `None`),
  and `sliceFrom s n` models the direct slice `&s[n..]`, whose `none`
  result stands for the panic Rust raises at a non-boundary index.
* Rust `char::is_alphabetic` (the Unicode `Alphabetic` property) is kept
  abstract as a parameter `alpha : Char → Bool`; nothing in the engine
  depends on which characters are alphabetic.
* The `while let Ok(..)` loops of `zero_or_more` / `one_or_more` are
  modelled with explicit fuel.  A success of the inner parser that consumes
  at least one character shrinks the remainder, so `input.length + 1`
  rounds of fuel are enough for every terminating execution of the Rust
  loop; executions the Rust loop would diverge on (an inner parser
  succeeding without consuming) are cut off by the fuel.
-/

/-- Rust `type ParseResult<'a, Output> = Result<(&'a str, Output), &'a str>`
(`parser_fun.rs`); the struct variant's `Result<(String, Output), String>` is
the same type once ownership is erased.  The error payload is the failure
input. -/
abbrev ParseResult (α : Type) : Type := Except (List Char) (List Char × α)

/-- The parser capability: `fn parse(&self, input) -> ParseResult<Output>`.
In `parser_fun.rs` any closure of this shape is a parser via the blanket
`impl`. -/
abbrev Parser (α : Type) : Type := List Char → ParseResult α

/-- Byte length of one scalar value in UTF-8, as Rust `char::len_utf8`. -/
def charUtf8Len (c : Char) : Nat :=
  if c.toNat < 0x80 then 1
  else if c.toNat < 0x800 then 2
  else if c.toNat < 0x10000 then 3
  else 4

/-- Byte length of a string, as Rust `str::len`. -/
def utf8Len : List Char → Nat
  | [] => 0
  | c :: cs => charUtf8Len c + utf8Len cs

/-- UTF-8 encoding of one scalar value (byte values as `Nat`). -/
def charUtf8 (c : Char) : List Nat :=
  if c.toNat < 0x80 then [c.toNat]
  else if c.toNat < 0x800 then [0xC0 + c.toNat / 64, 0x80 + c.toNat % 64]
  else if c.toNat < 0x10000 then
    [0xE0 + c.toNat / 4096, 0x80 + (c.toNat / 64) % 64, 0x80 + c.toNat % 64]
  else
    [0xF0 + c.toNat / 262144, 0x80 + (c.toNat / 4096) % 64,
     0x80 + (c.toNat / 64) % 64, 0x80 + c.toNat % 64]

/-- UTF-8 encoding of a string: the byte sequence Rust indexes into. -/
def utf8Encode : List Char → List Nat
  | [] => []
  | c :: cs => charUtf8 c ++ utf8Encode cs

/-- Model of the checked byte-range lookup `s.get(0..n)` on a `&str`,
together with the complementary suffix.  Returns `some (pre, suf)` with
`s = pre ++ suf` and `utf8Len pre = n` when byte index `n` is on a
character boundary and within bounds; `none` (Rust: `None`) when `n`
overruns the string or falls strictly inside a multi-byte code point. -/
def splitAtBytes (s : List Char) (n : Nat) : Option (List Char × List Char) :=
  if n = 0 then some ([], s)
  else
    match s with
    | [] => none
    | c :: cs =>
      if charUtf8Len c ≤ n then
        (splitAtBytes cs (n - charUtf8Len c)).map (fun p => (c :: p.1, p.2))
      else none

/-- Model of the direct (unchecked) slice `&s[n..]`: `some` of the suffix
when byte index `n` is a character boundary, `none` standing for the panic
Rust raises otherwise. -/
def sliceFrom (s : List Char) (n : Nat) : Option (List Char) :=
  if n = 0 then some s
  else
    match s with
    | [] => none
    | c :: cs => if charUtf8Len c ≤ n then sliceFrom cs (n - charUtf8Len c) else none

/-- `match_letter` (`parser_fun.rs:23`): matches one fixed code point.
`input.chars().next()` is the head; on success Rust slices off
`letter.len_utf8()` bytes, i.e. exactly the first character. -/
def match_letter (c : Char) : Parser Unit := fun input =>
  match input with
  | letter :: rest => if letter = c then .ok (rest, ()) else .error input
  | [] => .error input

/-- `match_literal` (`parser_fun.rs:30`): checked lookup
`input.get(0..expected.len())`, compare with `expected`, then slice
`&input[expected.len()..]` (the suffix `splitAtBytes` already produced,
see `sliceFrom_of_splitAtBytes`). -/
def match_literal (expected : List Char) : Parser (List Char) := fun input =>
  match splitAtBytes input (utf8Len expected) with
  | some (next, rest) => if next = expected then .ok (rest, expected) else .error input
  | none => .error input

/-- The `while let Some(next) = chars.next()` loop of `match_ident`
(`parser_fun.rs:46`): greedily collects alphabetic-or-hyphen characters,
stopping at the first other character. -/
def identRun (alpha : Char → Bool) : List Char → List Char
  | [] => []
  | c :: cs => if alpha c || c == '-' then c :: identRun alpha cs else []

/-- `match_ident` (`parser_fun.rs:37`).  The first character must satisfy
`is_alphabetic` (abstracted as `alpha`); then the run continues over
alphabetic-or-hyphen characters.  Rust returns `&input[matched.len()..]`:
`matched` is exactly the consumed character prefix of `input`, so its byte
length is a boundary of `input` and the slice is the character-level drop
(`sliceFrom_utf8Len_matched` re-checks this against the byte model). -/
def match_ident (alpha : Char → Bool) : Parser (List Char) := fun input =>
  match input with
  | [] => .error input
  | c :: cs =>
    if alpha c then
      let matched := c :: identRun alpha cs
      .ok (input.drop matched.length, matched)
    else .error input

/-- `pair` (`parser_fun.rs:58`): `p1.parse(input).and_then(|..| p2.parse(new_input).map(..))`. -/
def pair {α β : Type} (p1 : Parser α) (p2 : Parser β) : Parser (α × β) := fun input =>
  match p1 input with
  | .error e => .error e
  | .ok (new_input, res1) =>
    match p2 new_input with
    | .error e => .error e
    | .ok (rest_input, res2) => .ok (rest_input, (res1, res2))

/-- `map` (`parser_fun.rs:71`): transform the value of a success, propagate
failure unchanged. -/
def map {α β : Type} (p : Parser α) (map_fn : α → β) : Parser β := fun input =>
  match p input with
  | .error e => .error e
  | .ok (next, result) => .ok (next, map_fn result)

/-- The shared `while let Ok((rest, parsed)) = parser.parse(to_parse)` loop
of `zero_or_more` / `one_or_more` (`parser_fun.rs:90,111`), with explicit
fuel bounding the number of iterations (see module comment). -/
def zomLoop {α : Type} (p : Parser α) : Nat → List Char → List α → List Char × List α
  | 0, to_parse, result => (to_parse, result)
  | fuel + 1, to_parse, result =>
    match p to_parse with
    | .error _ => (to_parse, result)
    | .ok (rest, parsed) => zomLoop p fuel rest (result ++ [parsed])

/-- `zero_or_more` (`parser_fun.rs:83`): run the loop from the input with an
empty accumulator and wrap the outcome in `Ok` — there is no failure path. -/
def zero_or_more {α : Type} (p : Parser α) : Parser (List α) := fun input =>
  .ok (zomLoop p (input.length + 1) input [])

/-- `one_or_more` (`parser_fun.rs:98`): a first mandatory attempt — on its
failure the whole combinator returns `Err(input)` with the original input —
followed by the same loop as `zero_or_more`.  The fuel `input.length` is the
`zero_or_more` fuel minus the round the first attempt consumed, so the two
combinators run the loop identically. -/
def one_or_more {α : Type} (p : Parser α) : Parser (List α) := fun input =>
  match p input with
  | .error _ => .error input
  | .ok (rest, parsed) => .ok (zomLoop p input.length rest [parsed])


/-! ### Basic facts about the byte model -/

instance {ε α : Type} [DecidableEq ε] [DecidableEq α] : DecidableEq (Except ε α) := fun a b =>
  match a, b with
  | .error x, .error y =>
    if h : x = y then isTrue (by rw [h]) else isFalse (fun he => h (Except.error.inj he))
  | .error _, .ok _ => isFalse (fun he => Except.noConfusion he)
  | .ok _, .error _ => isFalse (fun he => Except.noConfusion he)
  | .ok x, .ok y =>
    if h : x = y then isTrue (by rw [h]) else isFalse (fun he => h (Except.ok.inj he))

theorem charUtf8Len_pos (c : Char) : 1 ≤ charUtf8Len c := by
  simp only [charUtf8Len]
  split_ifs <;> omega

theorem splitAtBytes_zero (s : List Char) : splitAtBytes s 0 = some ([], s) := by
  cases s <;> rfl

theorem splitAtBytes_nil_of_ne {n : Nat} (h : n ≠ 0) : splitAtBytes [] n = none := by
  simp [splitAtBytes, h]

theorem splitAtBytes_cons_of_ne (c : Char) (cs : List Char) {n : Nat} (h : n ≠ 0) :
    splitAtBytes (c :: cs) n =
      if charUtf8Len c ≤ n then
        (splitAtBytes cs (n - charUtf8Len c)).map (fun p => (c :: p.1, p.2))
      else none := by
  simp [splitAtBytes, h]

theorem sliceFrom_zero (s : List Char) : sliceFrom s 0 = some s := by
  cases s <;> rfl

theorem sliceFrom_cons_of_ne (c : Char) (cs : List Char) {n : Nat} (h : n ≠ 0) :
    sliceFrom (c :: cs) n =
      if charUtf8Len c ≤ n then sliceFrom cs (n - charUtf8Len c) else none := by
  simp [sliceFrom, h]

theorem utf8Len_append (a b : List Char) :
    utf8Len (a ++ b) = utf8Len a + utf8Len b := by
  induction a with
  | nil => simp [utf8Len]
  | cons c cs ih =>
    simp only [List.cons_append, utf8Len, List.append_eq, ih]
    omega

theorem utf8Encode_append (a b : List Char) :
    utf8Encode (a ++ b) = utf8Encode a ++ utf8Encode b := by
  induction a with
  | nil => simp [utf8Encode]
  | cons c cs ih =>
    simp only [List.cons_append, utf8Encode, List.append_eq, ih, List.append_assoc]

theorem splitAtBytes_append (pre suf : List Char) :
    splitAtBytes (pre ++ suf) (utf8Len pre) = some (pre, suf) := by
  induction pre with
  | nil => simp [utf8Len, splitAtBytes_zero]
  | cons c cs ih =>
    have h1 := charUtf8Len_pos c
    rw [List.cons_append]
    show splitAtBytes (c :: (cs ++ suf)) (charUtf8Len c + utf8Len cs) = _
    rw [splitAtBytes_cons_of_ne _ _ (by omega), if_pos (by omega),
      Nat.add_sub_cancel_left, ih]
    rfl

theorem splitAtBytes_eq_some {s : List Char} {n : Nat} {a b : List Char}
    (h : splitAtBytes s n = some (a, b)) : s = a ++ b ∧ utf8Len a = n := by
  induction s generalizing n a b with
  | nil =>
    rcases Nat.eq_zero_or_pos n with h0 | h0
    · subst h0
      rw [splitAtBytes_zero] at h
      obtain ⟨rfl, rfl⟩ : [] = a ∧ ([] : List Char) = b := by
        simpa using h.symm
      simp [utf8Len]
    · rw [splitAtBytes_nil_of_ne (by omega)] at h
      exact absurd h (by simp)
  | cons c cs ih =>
    rcases Nat.eq_zero_or_pos n with h0 | h0
    · subst h0
      rw [splitAtBytes_zero] at h
      obtain ⟨rfl, rfl⟩ : a = [] ∧ b = c :: cs := by
        simpa using h.symm
      simp [utf8Len]
    · rw [splitAtBytes_cons_of_ne _ _ (by omega)] at h
      by_cases hle : charUtf8Len c ≤ n
      · rw [if_pos hle] at h
        rcases hsp : splitAtBytes cs (n - charUtf8Len c) with _ | p
        · rw [hsp] at h
          exact absurd h (by simp)
        · rw [hsp] at h
          obtain ⟨rfl, rfl⟩ : c :: p.1 = a ∧ p.2 = b := by
            simpa using h
          obtain ⟨hcs, hlen⟩ := ih hsp
          refine ⟨by rw [hcs]; rfl, ?_⟩
          simp only [utf8Len]
          omega
      · rw [if_neg hle] at h
        exact absurd h (by simp)

theorem sliceFrom_append (pre suf : List Char) :
    sliceFrom (pre ++ suf) (utf8Len pre) = some suf := by
  induction pre with
  | nil => simp [utf8Len, sliceFrom_zero]
  | cons c cs ih =>
    have h1 := charUtf8Len_pos c
    rw [List.cons_append]
    show sliceFrom (c :: (cs ++ suf)) (charUtf8Len c + utf8Len cs) = _
    rw [sliceFrom_cons_of_ne _ _ (by omega), if_pos (by omega),
      Nat.add_sub_cancel_left, ih]

/-- Whenever the checked lookup `input.get(0..n)` succeeds, the direct slice
`&input[n..]` is at a verified character boundary: it does not panic and
produces exactly the suffix the lookup determined. -/
theorem sliceFrom_of_splitAtBytes {s : List Char} {n : Nat} {a b : List Char}
    (h : splitAtBytes s n = some (a, b)) : sliceFrom s n = some b := by
  obtain ⟨hs, hn⟩ := splitAtBytes_eq_some h
  rw [hs, ← hn]
  exact sliceFrom_append a b

theorem identRun_eq_takeWhile (alpha : Char → Bool) (cs : List Char) :
    identRun alpha cs = cs.takeWhile (fun x => alpha x || x == '-') := by
  induction cs with
  | nil => rfl
  | cons c cs ih =>
    simp only [identRun, List.takeWhile_cons]
    by_cases h : (alpha c || c == '-') = true
    · rw [if_pos h, if_pos h, ih]
    · rw [if_neg h, if_neg h]


/-! ### Characterization of the primitives -/
theorem match_literal_error {e i x : List Char}
    (h : match_literal e i = .error x) : x = i := by
  simp only [match_literal] at h
  split at h
  next a b hsp =>
    split_ifs at h with he
    injection h with h1
    exact h1.symm
  next hsp =>
    injection h with h1
    exact h1.symm

theorem match_literal_ok {e i r v : List Char}
    (h : match_literal e i = .ok (r, v)) : v = e ∧ i = e ++ r := by
  simp only [match_literal] at h
  split at h
  next a b hsp =>
    split_ifs at h with he
    injection h with h1
    obtain ⟨rfl, rfl⟩ : b = r ∧ e = v := by simpa using h1
    subst he
    exact ⟨rfl, (splitAtBytes_eq_some hsp).1⟩
  next hsp => exact Except.noConfusion h

theorem match_literal_of_append (e r : List Char) :
    match_literal e (e ++ r) = .ok (r, e) := by
  simp only [match_literal]
  rw [splitAtBytes_append]
  simp

theorem match_letter_error {c : Char} {i x : List Char}
    (h : match_letter c i = .error x) : x = i := by
  simp only [match_letter] at h
  split at h
  next d rest =>
    split_ifs at h with hd
    injection h with h1
    exact h1.symm
  next =>
    injection h with h1
    exact h1.symm

theorem match_ident_error {alpha : Char → Bool} {i x : List Char}
    (h : match_ident alpha i = .error x) : x = i := by
  simp only [match_ident] at h
  split at h
  next =>
    injection h with h1
    exact h1.symm
  next c cs =>
    split_ifs at h with hc
    injection h with h1
    exact h1.symm

/-! ### UTF-8 encoding facts -/
theorem char_toNat_lt (c : Char) : c.toNat < 1114112 := by
  rcases c.valid with h | ⟨h1, h2⟩
  · have hx : c.toNat < 55296 := h
    omega
  · exact h2

theorem charUtf8_band (c : Char) :
    ∃ hd tl, charUtf8 c = hd :: tl ∧ (hd :: tl).length = charUtf8Len c ∧
      ((charUtf8Len c = 1 ∧ hd < 128) ∨
       (charUtf8Len c = 2 ∧ 194 ≤ hd ∧ hd < 224) ∨
       (charUtf8Len c = 3 ∧ 224 ≤ hd ∧ hd < 240) ∨
       (charUtf8Len c = 4 ∧ 240 ≤ hd ∧ hd < 245)) := by
  have hv := char_toNat_lt c
  simp only [charUtf8, charUtf8Len]
  split_ifs with h1 h2 h3
  · exact ⟨c.toNat, [], rfl, rfl, .inl ⟨rfl, h1⟩⟩
  · refine ⟨_, _, rfl, rfl, .inr (.inl ⟨rfl, ?_, ?_⟩)⟩
    · have hb : 2 ≤ c.toNat / 64 := (Nat.le_div_iff_mul_le (by norm_num)).mpr (by omega)
      omega
    · have hb : c.toNat / 64 < 32 := Nat.div_lt_of_lt_mul (by omega)
      omega
  · refine ⟨_, _, rfl, rfl, .inr (.inr (.inl ⟨rfl, by omega, ?_⟩))⟩
    have hb : c.toNat / 4096 < 16 := Nat.div_lt_of_lt_mul (by omega)
    omega
  · refine ⟨_, _, rfl, rfl, .inr (.inr (.inr ⟨rfl, by omega, ?_⟩))⟩
    have hb : c.toNat / 262144 < 5 := Nat.div_lt_of_lt_mul (by omega)
    omega

theorem charUtf8_inj {c d : Char} (h : charUtf8 c = charUtf8 d) : c = d := by
  have hnat : c.toNat = d.toNat := by
    simp only [charUtf8] at h
    have hv1 := Nat.div_add_mod c.toNat 64
    have hv2 := Nat.div_add_mod (c.toNat / 64) 64
    have hv3 := Nat.div_add_mod (c.toNat / 4096) 64
    have hw1 := Nat.div_add_mod d.toNat 64
    have hw2 := Nat.div_add_mod (d.toNat / 64) 64
    have hw3 := Nat.div_add_mod (d.toNat / 4096) 64
    have hd1 : c.toNat / 64 / 64 = c.toNat / 4096 := by
      rw [Nat.div_div_eq_div_mul]
    have hd2 : c.toNat / 4096 / 64 = c.toNat / 262144 := by
      rw [Nat.div_div_eq_div_mul]
    have he1 : d.toNat / 64 / 64 = d.toNat / 4096 := by
      rw [Nat.div_div_eq_div_mul]
    have he2 : d.toNat / 4096 / 64 = d.toNat / 262144 := by
      rw [Nat.div_div_eq_div_mul]
    split_ifs at h <;> simp only [List.cons.injEq, and_true] at h <;> omega
  exact Char.eq_of_val_eq (UInt32.ext hnat)

theorem charUtf8_det {c d : Char} {x y : List Nat}
    (h : charUtf8 c ++ x = charUtf8 d ++ y) : charUtf8 c = charUtf8 d ∧ x = y := by
  obtain ⟨hc, tc, hceq, hclen, hcb⟩ := charUtf8_band c
  obtain ⟨hd, td, hdeq, hdlen, hdb⟩ := charUtf8_band d
  have hhead : hc = hd := by
    have := congrArg (fun l => l.headD 0) h
    simpa [hceq, hdeq] using this
  subst hhead
  have hlen : (charUtf8 c).length = (charUtf8 d).length := by
    rw [hceq, hdeq]
    rcases hcb with ⟨e1, b1⟩ | ⟨e1, b1, b1x⟩ | ⟨e1, b1, b1x⟩ | ⟨e1, b1, b1x⟩ <;>
      rcases hdb with ⟨e2, b2⟩ | ⟨e2, b2, b2x⟩ | ⟨e2, b2, b2x⟩ | ⟨e2, b2, b2x⟩ <;>
      omega
  exact List.append_inj h hlen

theorem utf8Encode_prefix_iff (e i : List Char) :
    (∃ t, utf8Encode e ++ t = utf8Encode i) ↔ ∃ r, e ++ r = i := by
  constructor
  · induction e generalizing i with
    | nil => exact fun _ => ⟨i, rfl⟩
    | cons c e2 ih =>
      rintro ⟨t, ht⟩
      cases i with
      | nil =>
        exfalso
        obtain ⟨hc, tc, hceq, hx, hy⟩ := charUtf8_band c
        rw [show utf8Encode [] = [] from rfl] at ht
        simp only [utf8Encode, hceq, List.cons_append, List.append_eq] at ht
        exact List.noConfusion ht
      | cons d i2 =>
        simp only [utf8Encode] at ht
        rw [List.append_assoc] at ht
        obtain ⟨hcd, hrest⟩ := charUtf8_det ht
        obtain rfl : c = d := charUtf8_inj hcd
        obtain ⟨r, hr⟩ := ih i2 ⟨t, hrest⟩
        exact ⟨r, by rw [List.cons_append, hr]⟩
  · rintro ⟨r, rfl⟩
    exact ⟨utf8Encode r, (utf8Encode_append e r).symm⟩

/-! ### The struct-based variant (parser_struct.rs) and the suffix invariant -/

structure LiteralParser where
  expected : List Char

def LiteralParser.parse (self : LiteralParser) (input : List Char) :
    ParseResult (List Char) :=
  match splitAtBytes input (utf8Len self.expected) with
  | some (next, rest) =>
    if next = self.expected then .ok (rest, self.expected) else .error input
  | none => .error input

structure IdentParser

def IdentParser.parse (alpha : Char → Bool) (_self : IdentParser)
    (input : List Char) : ParseResult (List Char) :=
  match input with
  | [] => .error input
  | c :: cs =>
    if alpha c then
      let matched := c :: identRun alpha cs
      .ok (input.drop matched.length, matched)
    else .error input

structure PairParser (α β : Type) where
  parser_a : Parser α
  parser_b : Parser β

def PairParser.parse {α β : Type} (self : PairParser α β) (input : List Char) :
    ParseResult (α × β) :=
  match self.parser_a input with
  | .error e => .error e
  | .ok (new_input, res1) =>
    match self.parser_b new_input with
    | .error e => .error e
    | .ok (rest_input, res2) => .ok (rest_input, (res1, res2))

structure ZeroOrMoreParser (α : Type) where
  parser : Parser α

def ZeroOrMoreParser.loop {α : Type} (self : ZeroOrMoreParser α) :
    Nat → List Char → List α → List Char × List α
  | 0, to_parse, result => (to_parse, result)
  | fuel + 1, to_parse, result =>
    match self.parser to_parse with
    | .error _ => (to_parse, result)
    | .ok (rest, parsed) => self.loop fuel rest (result ++ [parsed])

def ZeroOrMoreParser.parse {α : Type} (self : ZeroOrMoreParser α)
    (input : List Char) : ParseResult (List α) :=
  .ok (self.loop (input.length + 1) input [])

theorem ZeroOrMoreParser_loop_eq {α : Type} (p : Parser α) (fuel : Nat)
    (s : List Char) (acc : List α) :
    (ZeroOrMoreParser.mk p).loop fuel s acc = zomLoop p fuel s acc := by
  induction fuel generalizing s acc with
  | zero => rfl
  | succ n ih =>
    simp only [ZeroOrMoreParser.loop, zomLoop]
    cases hp : p s with
    | error e => rfl
    | ok pr =>
      obtain ⟨rest, parsed⟩ := pr
      exact ih rest (acc ++ [parsed])

def SuffixInvariant {α : Type} (p : Parser α) : Prop :=
  ∀ i rest v, p i = .ok (rest, v) → ∃ pre, pre ++ rest = i

theorem suffix_match_letter (c : Char) : SuffixInvariant (match_letter c) := by
  intro i rest v h
  simp only [match_letter] at h
  split at h
  next letter tl =>
    split_ifs at h with hl
    injection h with h1
    obtain ⟨rfl, _⟩ : tl = rest ∧ () = v := by simpa using h1
    exact ⟨[letter], rfl⟩
  next => exact Except.noConfusion h

theorem suffix_match_literal (e : List Char) : SuffixInvariant (match_literal e) := by
  intro i rest v h
  exact ⟨e, ((match_literal_ok h).2).symm⟩

theorem suffix_match_ident (alpha : Char → Bool) :
    SuffixInvariant (match_ident alpha) := by
  intro i rest v h
  simp only [match_ident] at h
  split at h
  next => exact Except.noConfusion h
  next c cs =>
    split_ifs at h with hc
    injection h with h1
    obtain ⟨hr, _⟩ : (c :: cs).drop (c :: identRun alpha cs).length = rest ∧
        c :: identRun alpha cs = v := by simpa using h1
    exact ⟨(c :: cs).take (c :: identRun alpha cs).length,
      by rw [← hr, List.take_append_drop]⟩

theorem suffix_pair {α β : Type} {p1 : Parser α} {p2 : Parser β}
    (h1 : SuffixInvariant p1) (h2 : SuffixInvariant p2) :
    SuffixInvariant (pair p1 p2) := by
  intro i rest v h
  simp only [pair] at h
  split at h
  next => exact Except.noConfusion h
  next mid res1 hp1 =>
    split at h
    next => exact Except.noConfusion h
    next rest2 res2 hp2 =>
      injection h with hx
      obtain ⟨rfl, _⟩ : rest2 = rest ∧ (res1, res2) = v := by simpa using hx
      obtain ⟨pre1, hpre1⟩ := h1 i mid res1 hp1
      obtain ⟨pre2, hpre2⟩ := h2 mid rest2 res2 hp2
      exact ⟨pre1 ++ pre2, by rw [List.append_assoc, hpre2, hpre1]⟩

theorem suffix_map {α β : Type} {p : Parser α} (f : α → β)
    (h1 : SuffixInvariant p) : SuffixInvariant (map p f) := by
  intro i rest v h
  simp only [map] at h
  split at h
  next => exact Except.noConfusion h
  next rest2 res hp =>
    injection h with hx
    obtain ⟨rfl, _⟩ : rest2 = rest ∧ f res = v := by simpa using hx
    exact h1 i rest2 res hp

theorem zomLoop_suffix {α : Type} {p : Parser α} (hp : SuffixInvariant p)
    (fuel : Nat) :
    ∀ input acc, ∃ pre, pre ++ (zomLoop p fuel input acc).1 = input := by
  induction fuel with
  | zero => exact fun input acc => ⟨[], rfl⟩
  | succ n ih =>
    intro input acc
    simp only [zomLoop]
    cases hp2 : p input with
    | error e => exact ⟨[], rfl⟩
    | ok pr =>
      obtain ⟨rest, parsed⟩ := pr
      obtain ⟨pre1, hpre1⟩ := hp input rest parsed hp2
      obtain ⟨pre2, hpre2⟩ := ih rest (acc ++ [parsed])
      exact ⟨pre1 ++ pre2, by rw [List.append_assoc, hpre2, hpre1]⟩

theorem suffix_zero_or_more {α : Type} {p : Parser α}
    (hp : SuffixInvariant p) : SuffixInvariant (zero_or_more p) := by
  intro i rest v h
  simp only [zero_or_more] at h
  injection h with hx
  obtain ⟨hr, _⟩ : (zomLoop p (i.length + 1) i []).1 = rest ∧
      (zomLoop p (i.length + 1) i []).2 = v := by
    constructor <;> rw [hx]
  obtain ⟨pre, hpre⟩ := zomLoop_suffix hp (i.length + 1) i []
  exact ⟨pre, by rw [← hr]; exact hpre⟩

theorem suffix_one_or_more {α : Type} {p : Parser α}
    (hp : SuffixInvariant p) : SuffixInvariant (one_or_more p) := by
  intro i rest v h
  simp only [one_or_more] at h
  split at h
  next => exact Except.noConfusion h
  next mid parsed hp1 =>
    injection h with hx
    obtain ⟨pre1, hpre1⟩ := hp i mid parsed hp1
    obtain ⟨pre2, hpre2⟩ := zomLoop_suffix hp i.length mid [parsed]
    refine ⟨pre1 ++ pre2, ?_⟩
    rw [List.append_assoc]
    rw [show (zomLoop p i.length mid [parsed]).1 = rest from by rw [hx]] at hpre2
    rw [hpre2, hpre1]

/-! ### Combinator behaviour lemmas -/

theorem drop_length_takeWhile (q : Char → Bool) (cs : List Char) :
    cs.drop (cs.takeWhile q).length = cs.dropWhile q := by
  induction cs with
  | nil => rfl
  | cons c cs ih =>
    by_cases h : q c
    · simp [List.takeWhile_cons, List.dropWhile_cons, h, ih]
    · simp [List.takeWhile_cons, List.dropWhile_cons, h]

theorem match_ident_cons_alpha {alpha : Char → Bool} {c : Char} (cs : List Char)
    (h : alpha c = true) :
    match_ident alpha (c :: cs) =
      .ok (cs.dropWhile (fun x => alpha x || x == '-'),
           c :: cs.takeWhile (fun x => alpha x || x == '-')) := by
  simp only [match_ident, if_pos h, identRun_eq_takeWhile]
  rw [List.length_cons, List.drop_succ_cons, drop_length_takeWhile]

theorem match_ident_not_alpha {alpha : Char → Bool} {c : Char} (cs : List Char)
    (h : ¬ alpha c = true) : match_ident alpha (c :: cs) = .error (c :: cs) := by
  simp only [match_ident, if_neg h]

theorem pair_error_first {α β : Type} {p1 : Parser α} (p2 : Parser β)
    {i e : List Char} (h : p1 i = .error e) : pair p1 p2 i = .error e := by
  simp [pair, h]

theorem pair_error_second {α β : Type} {p1 : Parser α} {p2 : Parser β}
    {i mid e : List Char} {v : α} (h1 : p1 i = .ok (mid, v))
    (h2 : p2 mid = .error e) : pair p1 p2 i = .error e := by
  simp [pair, h1, h2]

theorem pair_ok_ok {α β : Type} {p1 : Parser α} {p2 : Parser β}
    {i mid rest : List Char} {v1 : α} {v2 : β} (h1 : p1 i = .ok (mid, v1))
    (h2 : p2 mid = .ok (rest, v2)) : pair p1 p2 i = .ok (rest, (v1, v2)) := by
  simp [pair, h1, h2]

theorem pair_error_cases {α β : Type} {p1 : Parser α} {p2 : Parser β}
    {i e : List Char} (h : pair p1 p2 i = .error e) :
    p1 i = .error e ∨ ∃ mid v1, p1 i = .ok (mid, v1) ∧ p2 mid = .error e := by
  simp only [pair] at h
  split at h
  next e1 hp1 =>
    injection h with hx
    exact .inl (by rw [hp1, hx])
  next mid v1 hp1 =>
    split at h
    next e2 hp2 =>
      injection h with hx
      exact .inr ⟨mid, v1, hp1, by rw [hp2, hx]⟩
    next => exact Except.noConfusion h

theorem map_error_iff {α β : Type} {p : Parser α} {f : α → β} {i e : List Char} :
    map p f i = .error e ↔ p i = .error e := by
  constructor
  · intro h
    simp only [map] at h
    split at h
    next e1 hp =>
      injection h with hx
      rw [hp, hx]
    next => exact Except.noConfusion h
  · intro h
    simp [map, h]

theorem one_or_more_error_eq {α : Type} {p : Parser α} {i e : List Char}
    (h : one_or_more p i = .error e) : e = i := by
  simp only [one_or_more] at h
  split at h
  next =>
    injection h with hx
    exact hx.symm
  next => exact Except.noConfusion h

theorem one_or_more_error_of_error {α : Type} {p : Parser α} {i x : List Char}
    (h : p i = .error x) : one_or_more p i = .error i := by
  simp [one_or_more, h]

theorem zero_or_more_of_error {α : Type} {p : Parser α} {i x : List Char}
    (h : p i = .error x) : zero_or_more p i = .ok (i, []) := by
  simp [zero_or_more, zomLoop, h]

theorem zero_or_more_of_one_or_more_ok {α : Type} {p : Parser α}
    {i : List Char} {st : List Char × List α}
    (h : one_or_more p i = .ok st) : zero_or_more p i = .ok st := by
  simp only [one_or_more] at h
  split at h
  next => exact Except.noConfusion h
  next rest parsed hp =>
    injection h with hx
    simp only [zero_or_more, zomLoop, hp, List.nil_append]
    rw [hx]

/-! ### Claim theorems -/

theorem match_ident_ok_split {alpha : Char → Bool} {i rest v : List Char}
    (h : match_ident alpha i = .ok (rest, v)) : i = v ++ rest := by
  rcases i with _ | ⟨c, cs⟩
  · exact Except.noConfusion h
  · by_cases hc : alpha c = true
    · rw [match_ident_cons_alpha cs hc] at h
      injection h with hx
      obtain ⟨rfl, rfl⟩ :
          cs.dropWhile (fun x => alpha x || x == '-') = rest ∧
          c :: cs.takeWhile (fun x => alpha x || x == '-') = v := by simpa using hx
      rw [List.cons_append, List.takeWhile_append_dropWhile]
    · rw [match_ident_not_alpha cs hc] at h
      exact Except.noConfusion h

/-- C1 counterexample: the claim asserts that every Failure carries the very
input the failing parser invocation received, "for every combinator
including pair".  The pair of `literal("a")` and `literal("b")` on input
`"ax"` fails with `"x"` (the input at the point `p2` failed, after `p1`
consumed `"a"`), which differs from the original input `"ax"`. -/
theorem C1_counterexample :
    pair (match_literal ['a']) (match_literal ['b']) ['a', 'x'] = .error ['x'] ∧
    (['x'] : List Char) ≠ ['a', 'x'] := by
  exact ⟨by decide, by decide⟩

/-- C1 (amended): every primitive (`match_letter`, `match_literal`,
`match_ident`) and `one_or_more` fail with exactly their own original
input, and `zero_or_more` never fails; `map` propagates the inner
failure input untouched; `pair` fails with the failure input of the
sub-parser that failed — the original input when `p1` fails, and `p1`'s
remainder position when `p2` fails (so the pair's failure input is the
input of the failing sub-invocation, not necessarily the pair's own). -/
theorem C1_failure_inputs (i e : List Char) :
    (∀ c, match_letter c i = .error e → e = i) ∧
    (∀ exp, match_literal exp i = .error e → e = i) ∧
    (∀ alpha, match_ident alpha i = .error e → e = i) ∧
    (∀ (α : Type) (p : Parser α), one_or_more p i = .error e → e = i) ∧
    (∀ (α : Type) (p : Parser α), zero_or_more p i ≠ .error e) ∧
    (∀ (α β : Type) (p : Parser α) (f : α → β),
      map p f i = .error e → p i = .error e) ∧
    (∀ (α β : Type) (p1 : Parser α) (p2 : Parser β), pair p1 p2 i = .error e →
      p1 i = .error e ∨ ∃ mid v1, p1 i = .ok (mid, v1) ∧ p2 mid = .error e) := by
  refine ⟨fun c h => match_letter_error h, fun exp h => match_literal_error h,
    fun alpha h => match_ident_error h, fun α p h => one_or_more_error_eq h,
    fun α p h => ?_, fun α β p f h => map_error_iff.mp h,
    fun α β p1 p2 h => pair_error_cases h⟩
  exact Except.noConfusion h

/-- Witness for C1 (amended) at concrete inputs. -/
theorem C1_witness :
    (['x'] : List Char) = ['x'] ∧ match_literal ['b'] ['x'] = .error ['x'] :=
  ⟨(C1_failure_inputs ['x'] ['x']).2.1 ['b'] (by decide), by decide⟩

/-- C2: every parser built from the primitives and combinators of the engine
satisfies the suffix invariant — a successful parse returns a remainder
`rest` with `i = matched_prefix ++ rest`.  Stated as closure: the
primitives satisfy `SuffixInvariant`, and every combinator preserves it. -/
theorem C2_suffix_closure :
    (∀ c, SuffixInvariant (match_letter c)) ∧
    (∀ e, SuffixInvariant (match_literal e)) ∧
    (∀ alpha, SuffixInvariant (match_ident alpha)) ∧
    (∀ (α β : Type) (p1 : Parser α) (p2 : Parser β),
      SuffixInvariant p1 → SuffixInvariant p2 → SuffixInvariant (pair p1 p2)) ∧
    (∀ (α β : Type) (p : Parser α) (f : α → β),
      SuffixInvariant p → SuffixInvariant (map p f)) ∧
    (∀ (α : Type) (p : Parser α),
      SuffixInvariant p → SuffixInvariant (zero_or_more p)) ∧
    (∀ (α : Type) (p : Parser α),
      SuffixInvariant p → SuffixInvariant (one_or_more p)) :=
  ⟨suffix_match_letter, suffix_match_literal, suffix_match_ident,
   fun _ _ _ _ => suffix_pair, fun _ _ _ f => suffix_map f,
   fun _ _ => suffix_zero_or_more, fun _ _ => suffix_one_or_more⟩

/-- Witness for C2 at a concrete parser and input. -/
theorem C2_witness : ∃ pre, pre ++ ['>'] = ['a', 'b', '>'] :=
  C2_suffix_closure.2.2.1 Char.isAlpha ['a', 'b', '>'] ['>'] ['a', 'b']
    (by decide)

/-- C3: whenever `one_or_more(p)` succeeds, `zero_or_more(p)` succeeds with
the identical remainder and sequence; whenever `one_or_more(p)` fails, the
failure carries the original input unchanged and `zero_or_more(p)` succeeds
with the unchanged input and the empty sequence. -/
theorem C3_one_vs_zero {α : Type} (p : Parser α) (i : List Char) :
    (∀ st, one_or_more p i = .ok st → zero_or_more p i = .ok st) ∧
    (∀ e, one_or_more p i = .error e →
      e = i ∧ zero_or_more p i = .ok (i, [])) := by
  refine ⟨fun st h => zero_or_more_of_one_or_more_ok h,
    fun e h => ⟨one_or_more_error_eq h, ?_⟩⟩
  simp only [one_or_more] at h
  split at h
  next x hp => exact zero_or_more_of_error hp
  next => exact Except.noConfusion h

/-- Witness for C3: a succeeding and a failing concrete repetition. -/
theorem C3_witness :
    zero_or_more (match_literal ['a']) ['a', 'b'] = .ok (['b'], [['a']]) ∧
    ((['x'] : List Char) = ['x'] ∧
      zero_or_more (match_literal ['a']) ['x'] = .ok (['x'], [])) :=
  ⟨(C3_one_vs_zero (match_literal ['a']) ['a', 'b']).1 (['b'], [['a']])
      (by decide),
   (C3_one_vs_zero (match_literal ['a']) ['x']).2 ['x'] (by decide)⟩

/-- C4: `zero_or_more(p)` never returns Failure, and on an input where `p`
does not match even once it succeeds with the unchanged input and the
empty sequence. -/
theorem C4_zero_or_more_total {α : Type} (p : Parser α) (i : List Char) :
    (∃ st, zero_or_more p i = .ok st) ∧
    (∀ x, p i = .error x → zero_or_more p i = .ok (i, [])) :=
  ⟨⟨zomLoop p (i.length + 1) i [], rfl⟩, fun _ h => zero_or_more_of_error h⟩

/-- Witness for C4 on a zero-match input. -/
theorem C4_witness :
    zero_or_more (match_literal ['a']) ['b', 'c'] = .ok (['b', 'c'], []) :=
  (C4_zero_or_more_total (match_literal ['a']) ['b', 'c']).2 ['b', 'c']
    (by decide)

/-- C5: `pair(p1, p2)` fails with `p1`'s failure input when `p1` fails (and
`p2` is never attempted: the outcome does not depend on `p2` at all); fails
with `p2`'s failure input (produced from the input after `p1`'s
consumption) when `p1` succeeds and `p2` fails; and on double success
returns `p2`'s remainder with the ordered 2-tuple of both results. -/
theorem C5_pair_contract {α β : Type} (p1 : Parser α) (p2 : Parser β)
    (i : List Char) :
    (∀ e, p1 i = .error e → pair p1 p2 i = .error e ∧
      ∀ p2' : Parser β, pair p1 p2' i = pair p1 p2 i) ∧
    (∀ mid v1 e, p1 i = .ok (mid, v1) → p2 mid = .error e →
      pair p1 p2 i = .error e) ∧
    (∀ mid v1 rest v2, p1 i = .ok (mid, v1) → p2 mid = .ok (rest, v2) →
      pair p1 p2 i = .ok (rest, (v1, v2))) :=
  ⟨fun _ h => ⟨pair_error_first p2 h,
      fun p2' => (pair_error_first p2' h).trans (pair_error_first p2 h).symm⟩,
   fun _ _ _ h1 h2 => pair_error_second h1 h2,
   fun _ _ _ _ h1 h2 => pair_ok_ok h1 h2⟩

/-- Witness for C5: all three branches at concrete inputs. -/
theorem C5_witness :
    pair (match_literal ['<']) (match_literal ['>']) ['x'] = .error ['x'] ∧
    pair (match_literal ['<']) (match_literal ['>']) ['<', 'x'] =
      .error ['x'] ∧
    pair (match_literal ['<']) (match_literal ['>']) ['<', '>'] =
      .ok ([], (['<'], ['>'])) :=
  ⟨((C5_pair_contract (match_literal ['<']) (match_literal ['>']) ['x']).1
      ['x'] (by decide)).1,
   (C5_pair_contract (match_literal ['<']) (match_literal ['>'])
      ['<', 'x']).2.1 ['x'] ['<'] ['x'] (by decide) (by decide),
   (C5_pair_contract (match_literal ['<']) (match_literal ['>'])
      ['<', '>']).2.2 ['>'] ['<'] [] ['>'] (by decide) (by decide)⟩

/-- C6: the identifier parser succeeds iff the first character is
alphabetic; on success it consumes that character plus the maximal
following run of alphabetic-or-hyphen characters (`takeWhile`), returns
the full matched run as the value and leaves the rest (`dropWhile`,
starting with the first non-alphabetic, non-hyphen character, such as a
digit or `>`) as the remainder; on empty input or a non-alphabetic first
character it fails returning the unchanged input. -/
theorem C6_ident_contract (alpha : Char → Bool) (i : List Char) :
    (match_ident alpha [] = .error []) ∧
    (∀ c cs, i = c :: cs → alpha c = true →
      match_ident alpha i =
        .ok (cs.dropWhile (fun x => alpha x || x == '-'),
             c :: cs.takeWhile (fun x => alpha x || x == '-'))) ∧
    (∀ c cs, i = c :: cs → ¬ alpha c = true →
      match_ident alpha i = .error i) ∧
    ((∃ st, match_ident alpha i = .ok st) ↔
      ∃ c cs, i = c :: cs ∧ alpha c = true) := by
  refine ⟨rfl, fun c cs hi hc => by rw [hi]; exact match_ident_cons_alpha cs hc,
    fun c cs hi hc => by rw [hi]; exact match_ident_not_alpha cs hc, ?_⟩
  constructor
  · rintro ⟨st, hst⟩
    rcases i with _ | ⟨c, cs⟩
    · exact Except.noConfusion hst
    · by_cases hc : alpha c = true
      · exact ⟨c, cs, rfl, hc⟩
      · rw [match_ident_not_alpha cs hc] at hst
        exact Except.noConfusion hst
  · rintro ⟨c, cs, rfl, hc⟩
    exact ⟨_, match_ident_cons_alpha cs hc⟩

/-- Witness for C6 on the repository's own test input `"demo-id>"`. -/
theorem C6_witness :
    match_ident Char.isAlpha ['d', 'e', 'm', 'o', '-', 'i', 'd', '>'] =
      .ok (['>'], ['d', 'e', 'm', 'o', '-', 'i', 'd']) := by
  have h := (C6_ident_contract Char.isAlpha
      ['d', 'e', 'm', 'o', '-', 'i', 'd', '>']).2.1 'd'
      ['e', 'm', 'o', '-', 'i', 'd', '>'] rfl (by decide)
  simpa using h

/-- C7: `literal(expected)` succeeds iff the input's first
`len(expected)` bytes equal `expected`'s bytes exactly (stated on the
UTF-8 encodings: `utf8Encode expected` is a byte prefix of
`utf8Encode input`); on success the value is the matched text and the
remainder is the input after those bytes (`input = expected ++ rest`);
on failure the unchanged input is returned. -/
theorem C7_literal_contract (expected input : List Char) :
    ((∃ st, match_literal expected input = .ok st) ↔
      ∃ t, utf8Encode expected ++ t = utf8Encode input) ∧
    (∀ rest v, match_literal expected input = .ok (rest, v) →
      v = expected ∧ input = expected ++ rest) ∧
    (∀ x, match_literal expected input = .error x → x = input) := by
  refine ⟨⟨?_, ?_⟩, fun rest v h => match_literal_ok h,
    fun x h => match_literal_error h⟩
  · rintro ⟨⟨rest, v⟩, hst⟩
    obtain ⟨rfl, hi⟩ := match_literal_ok hst
    exact (utf8Encode_prefix_iff v input).mpr ⟨rest, hi.symm⟩
  · intro hpre
    obtain ⟨r, hr⟩ := (utf8Encode_prefix_iff expected input).mp hpre
    exact ⟨(r, expected), by rw [← hr]; exact match_literal_of_append expected r⟩

/-- Witness for C7 including the multi-byte example
`literal("😁")` on `"😁 smile"`. -/
theorem C7_witness :
    match_literal ['😁'] ['😁', ' ', 's', 'm', 'i', 'l', 'e'] =
      .ok ([' ', 's', 'm', 'i', 'l', 'e'], ['😁']) ∧
    (['😁'] : List Char) = ['😁'] ∧
    (['😁', ' ', 's', 'm', 'i', 'l', 'e'] : List Char) =
      ['😁'] ++ [' ', 's', 'm', 'i', 'l', 'e'] :=
  ⟨by decide,
   (C7_literal_contract ['😁'] ['😁', ' ', 's', 'm', 'i', 'l', 'e']).2.1
     [' ', 's', 'm', 'i', 'l', 'e'] ['😁'] (by decide)⟩

/-- C8: the struct-based variant and the function-based variant agree
pointwise: for every input, each struct parser produces exactly the same
outcome (success/failure, remainder and value) as the corresponding
function parser.  Ownership differences (`String` vs `&str`) are erased
by the embedding; what remains is the behavioral contract. -/
theorem C8_struct_fun_agree :
    (∀ e i, LiteralParser.parse ⟨e⟩ i = match_literal e i) ∧
    (∀ alpha i, IdentParser.parse alpha ⟨⟩ i = match_ident alpha i) ∧
    (∀ (α β : Type) (pa : Parser α) (pb : Parser β) i,
      PairParser.parse ⟨pa, pb⟩ i = pair pa pb i) ∧
    (∀ (α : Type) (p : Parser α) i,
      ZeroOrMoreParser.parse ⟨p⟩ i = zero_or_more p i) := by
  refine ⟨fun e i => rfl, fun alpha i => rfl, fun α β pa pb i => rfl,
    fun α p i => ?_⟩
  simp only [ZeroOrMoreParser.parse, zero_or_more, ZeroOrMoreParser_loop_eq]

/-- C10: the primitives never panic.  If the checked lookup
`input.get(0..expected.len())` returns `None` (expected length overruns
the input or falls inside a multi-byte code point), `literal` returns
Failure with the unchanged input instead of panicking; whenever the
lookup succeeds, the direct slice `&input[expected.len()..]` is at a
verified character boundary and yields the suffix; and the identifier
parser's direct slice `&input[matched.len()..]` is always at a verified
character boundary, yielding exactly the returned remainder. -/
theorem C10_no_panic (expected input : List Char) :
    (splitAtBytes input (utf8Len expected) = none →
      match_literal expected input = .error input) ∧
    (∀ pre suf, splitAtBytes input (utf8Len expected) = some (pre, suf) →
      sliceFrom input (utf8Len expected) = some suf) ∧
    (∀ alpha rest v, match_ident alpha input = .ok (rest, v) →
      sliceFrom input (utf8Len v) = some rest) := by
  refine ⟨fun h => by simp only [match_literal, h],
    fun pre suf h => sliceFrom_of_splitAtBytes h, fun alpha rest v h => ?_⟩
  rw [match_ident_ok_split h]
  exact sliceFrom_append v rest

/-- Witness for C10: a lookup landing inside a multi-byte code point, a
lookup exceeding the input length, and boundary slices for literal and
identifier, all concrete. -/
theorem C10_witness :
    match_literal ['a'] ['é', 'x'] = .error ['é', 'x'] ∧
    match_literal ['a', 'b'] ['x'] = .error ['x'] ∧
    sliceFrom ['😁', 'x'] (utf8Len ['😁']) = some ['x'] ∧
    sliceFrom ['a', 'b', '-', '1'] (utf8Len ['a', 'b', '-']) = some ['1'] :=
  ⟨(C10_no_panic ['a'] ['é', 'x']).1 (by decide),
   (C10_no_panic ['a', 'b'] ['x']).1 (by decide),
   (C10_no_panic ['😁'] ['😁', 'x']).2.1 ['😁'] ['x'] (by decide),
   (C10_no_panic [] ['a', 'b', '-', '1']).2.2 Char.isAlpha ['1']
     ['a', 'b', '-'] (by decide)⟩
